import Mathlib

/-!
Verification of the indra_db distillation and preassembly core.

The repository ingests raw extracted statements produced by several
extraction tools, distills them (keeping only the best extractor-version
output per content unit, while protecting records that already carry
evidence links), merges the survivors into canonical statements keyed by a
shallow content fingerprint, and computes a directed refinement graph
between canonical statements.

The distiller (`indra_db/util/distill_statements.py`) and the preassembly
corpus builder (`indra_db/preassembly/preassemble_db.py`) are exercised by
the tests shipped here (`indra_db/tests/test_preassembly.py`) but their
implementation modules are not part of this source snapshot, so those two
components are modelled from the specification text.  The knowledgebase
evidence expansion helper `_expanded` (`indra_db/cli/knowledgebase.py`) is
translated directly from its source.
-/

/-! ## Data model -/

/-- Logical content of a statement: a typed relation together with an opaque
payload standing for the grounded agents / sites.  The shallow fingerprint
of a statement is exactly its `Content` value. -/
structure Content where
  relType : Nat
  payload : Nat
deriving DecidableEq, Repr

/-- Modelled from the spec: one raw extracted statement instance with its
single evidence item and full provenance path
`(input_unit_id, source_kind, content_unit_id, extractor_name,
extractor_version, extraction_run_id)`; the RawRecord class itself lives in
storage code outside this snapshot. -/
structure RawRecord where
  id : Nat
  trid : Nat
  src : Nat
  tcid : Nat
  reader : Nat
  rv : Nat
  rid : Nat
  content : Content
  evidence : Nat
deriving DecidableEq, Repr

/-- The grouping key used by the distiller: one group per
`(input_unit_id, source_kind, content_unit_id, extractor_name)`. -/
structure GroupKey where
  trid : Nat
  src : Nat
  tcid : Nat
  reader : Nat
deriving DecidableEq, Repr

def RawRecord.key (r : RawRecord) : GroupKey :=
  ⟨r.trid, r.src, r.tcid, r.reader⟩

/-! ## Distiller

Modelled from the spec (section 4.1): the implementation
`get_filtered_rdg_stmts` in `indra_db/util/distill_statements.py` is not in
this snapshot.  For every provenance group the externally supplied priority
table orders the extractor versions (highest index most preferred, versions
absent from the table are lowest priority); only records of the
most-preferred version present survive, and within that version only the
records of the single best extraction run (runs containing a pre-linked
record are preferred, ties broken by the stable rule of taking the highest
run id).  Records whose id is in the linked-ids set are always retained. -/

/-- Priority rank of a version for one extractor: its index in the priority
list plus one, or zero when the version is absent from the table (absent
versions are treated as lowest priority). -/
def versionRank (prio : Nat → List Nat) (reader v : Nat) : Nat :=
  if v ∈ prio reader then (prio reader).indexOf v + 1 else 0

/-- Strict lexicographic order on priority keys. -/
abbrev pairLt (a b : Nat × Nat) : Prop :=
  a.1 < b.1 ∨ (a.1 = b.1 ∧ a.2 < b.2)

/-- Version priority key of a record: priority rank first, raw version
number as the deterministic tie break. -/
def vkey (prio : Nat → List Nat) (r : RawRecord) : Nat × Nat :=
  (versionRank prio r.reader r.rv, r.rv)

/-- A record is at the best version of its group when no record of the same
group has a strictly larger version key. -/
abbrev isBestVersion (prio : Nat → List Nat) (rs : Finset RawRecord)
    (r : RawRecord) : Prop :=
  ∀ s ∈ rs, r.key = s.key → ¬ pairLt (vkey prio r) (vkey prio s)

/-- An extraction run is marked when it contains a record whose id is in the
linked-ids set; such runs win the tie break among runs of one version. -/
abbrev runLinked (rs : Finset RawRecord) (linked : Finset Nat)
    (r : RawRecord) : Prop :=
  ∃ s ∈ rs, r.key = s.key ∧ r.rv = s.rv ∧ r.rid = s.rid ∧ s.id ∈ linked

/-- Run priority key: presence of a pre-linked record first, then the run id
as the stable tie break. -/
def runKey (rs : Finset RawRecord) (linked : Finset Nat)
    (r : RawRecord) : Nat × Nat :=
  (if runLinked rs linked r then 1 else 0, r.rid)

/-- A record belongs to the single best run at its version within its
group. -/
abbrev isBestRun (rs : Finset RawRecord) (linked : Finset Nat)
    (r : RawRecord) : Prop :=
  ∀ s ∈ rs, r.key = s.key → r.rv = s.rv →
    ¬ pairLt (runKey rs linked r) (runKey rs linked s)

/-- Modelled from the spec: selection predicate of the distiller.  A record
survives when its id is pre-linked (the linked-record exemption), or when it
is at the most-preferred version present in its group and in the best
extraction run at that version. -/
abbrev selectRecord (prio : Nat → List Nat) (rs : Finset RawRecord)
    (linked : Finset Nat) (r : RawRecord) : Prop :=
  r.id ∈ linked ∨ (isBestVersion prio rs r ∧ isBestRun rs linked r)

/-- The set of records the distiller keeps. -/
def distillSelected (prio : Nat → List Nat) (rs : Finset RawRecord)
    (linked : Finset Nat) : Finset RawRecord :=
  rs.filter (fun r => selectRecord prio rs linked r)

/-- The ids of the records the distiller reports as superseded. -/
def distillSuperseded (prio : Nat → List Nat) (rs : Finset RawRecord)
    (linked : Finset Nat) : Finset Nat :=
  (rs.filter (fun r => ¬ selectRecord prio rs linked r)).image RawRecord.id

/-- Modelled from the spec: the distiller contract
`distill(index, linked_ids, full_records)`.  The implementation is not in
this snapshot; per the spec it returns either the surviving full records or
only their identifiers, according to `full`, and always returns the
superseded-id set. -/
def distill (prio : Nat → List Nat) (rs : Finset RawRecord)
    (linked : Finset Nat) (full : Bool) :
    (Finset RawRecord ⊕ Finset Nat) × Finset Nat :=
  (if full then Sum.inl (distillSelected prio rs linked)
   else Sum.inr ((distillSelected prio rs linked).image RawRecord.id),
   distillSuperseded prio rs linked)

/-! ## Preassembly corpus builder and refinement linker

Modelled from the spec (sections 4.2 and 4.3): the implementation
`DbPreassembler` in `indra_db/preassembly/preassemble_db.py` (with its
`create_corpus` and `supplement_corpus` entry points) is not in this
snapshot.  Records are grouped by shallow fingerprint; a group is merged
into a fresh `CanonicalStatement`, or folded into the existing one when the
fingerprint is already in the corpus; exact duplicates (same content and
evidence) collapse into one evidence entry; one `RawUniqueLink` is emitted
per surviving record.  The refinement linker compares canonical statements
pairwise within one relation-type partition through the ontology
comparator, and on incremental runs only recomputes pairs involving a
statement new to the corpus. -/

/-- Answer of the external ontology comparator for a pair of contents. -/
inductive CmpRes where
  | equal
  | aGenB
  | bGenA
  | unrelated
deriving DecidableEq, Repr

/-- A canonical statement: a shallow fingerprint together with the union of
evidence items and the set of contributing raw record ids. -/
structure CanonicalStatement where
  fp : Content
  evidence : Finset Nat
  srcIds : Finset Nat
deriving DecidableEq

/-- Corpus state: the canonical statements, the raw-to-canonical links
`(raw_record_id, canonical_fingerprint)`, and the refinement links
`(supporting_fingerprint, supported_fingerprint)`. -/
structure Corpus where
  canon : Finset CanonicalStatement
  links : Finset (Nat × Content)
  refs : Finset (Content × Content)
deriving DecidableEq

/-- The shallow fingerprints occurring in a record set. -/
def fpSet (R : Finset RawRecord) : Finset Content :=
  R.image RawRecord.content

/-- The records of a batch sharing one shallow fingerprint. -/
def contentGroup (R : Finset RawRecord) (fp : Content) : Finset RawRecord :=
  R.filter (fun r => r.content = fp)

/-- Modelled from the spec: merging one fingerprint group of records into a
fresh canonical statement.  Taking the image of the evidence collapses exact
duplicates (identical content and evidence) into one evidence entry. -/
def buildCanon (R : Finset RawRecord) (fp : Content) : CanonicalStatement :=
  ⟨fp, (contentGroup R fp).image RawRecord.evidence,
    (contentGroup R fp).image RawRecord.id⟩

/-- Modelled from the spec: folding a batch into an already-existing
canonical statement — append the new evidence and extend the
contributing-record set. -/
def mergeCanon (cs : CanonicalStatement) (R : Finset RawRecord) :
    CanonicalStatement :=
  ⟨cs.fp, cs.evidence ∪ (contentGroup R cs.fp).image RawRecord.evidence,
    cs.srcIds ∪ (contentGroup R cs.fp).image RawRecord.id⟩

/-- The fingerprints of the canonical statements held by a corpus. -/
def Corpus.fps (c : Corpus) : Finset Content :=
  c.canon.image CanonicalStatement.fp

/-- Modelled from the spec: the refinement condition on an ordered pair
`(supporting, supported)` — distinct fingerprints of the same relation type
such that the supported statement's content strictly generalizes the
supporting statement's content according to the ontology comparator. -/
abbrev refPair (ont : Content → Content → CmpRes)
    (p : Content × Content) : Prop :=
  p.1 ≠ p.2 ∧ p.1.relType = p.2.relType ∧ ont p.2 p.1 = CmpRes.aGenB

/-- Modelled from the spec: the full pairwise refinement-link computation
over a set of canonical-statement fingerprints. -/
def refLinks (ont : Content → Content → CmpRes)
    (fps : Finset Content) : Finset (Content × Content) :=
  (fps ×ˢ fps).filter (fun p => refPair ont p)

/-- Modelled from the spec: the incremental refinement-link computation,
restricted to pairs in which at least one fingerprint is new in this
run. -/
def refLinksNew (ont : Content → Content → CmpRes)
    (fps newFps : Finset Content) : Finset (Content × Content) :=
  (fps ×ˢ fps).filter
    (fun p => (p.1 ∈ newFps ∨ p.2 ∈ newFps) ∧ refPair ont p)

/-- The corpus before any build. -/
def emptyCorpus : Corpus := ⟨∅, ∅, ∅⟩

/-- Modelled from the spec: `supplement_corpus` — fold a batch of distilled
records into an existing corpus.  Fingerprint groups whose canonical
statement already exists are merged into it, the remaining groups create
fresh canonical statements, one raw-to-canonical link is appended per
record, and refinement links are recomputed only for pairs involving a
fingerprint new to the corpus. -/
def supplement_corpus (ont : Content → Content → CmpRes) (c : Corpus)
    (R : Finset RawRecord) : Corpus :=
  { canon := c.canon.image (fun cs => mergeCanon cs R) ∪
      (fpSet R \ c.fps).image (buildCanon R)
  , links := c.links ∪ R.image (fun r => (r.id, r.content))
  , refs := c.refs ∪
      refLinksNew ont (c.fps ∪ fpSet R) ((c.fps ∪ fpSet R) \ c.fps) }

/-- Modelled from the spec: `create_corpus` — the full build, which is the
same batch fold started from the empty corpus. -/
def create_corpus (ont : Content → Content → CmpRes)
    (R : Finset RawRecord) : Corpus :=
  supplement_corpus ont emptyCorpus R

/-! ## Corpus states reachable by the orchestrator -/

/-- The corpus states produced by full builds and incremental supplements:
every persisted corpus is of this shape. -/
inductive ReachableCorpus (ont : Content → Content → CmpRes) : Corpus → Prop where
  | created (R : Finset RawRecord) : ReachableCorpus ont (create_corpus ont R)
  | supplemented (c : Corpus) (R : Finset RawRecord) :
      ReachableCorpus ont c → ReachableCorpus ont (supplement_corpus ont c R)

/-! ## Relation-type restricted runs -/

/-- The records of one relation-type partition. -/
def typeFilter (R : Finset RawRecord) (t : Nat) : Finset RawRecord :=
  R.filter (fun r => r.content.relType = t)

/-- The union of the relation-type partitions named by `ts`. -/
def typedUnion (R : Finset RawRecord) (ts : List Nat) : Finset RawRecord :=
  ts.foldr (fun t acc => typeFilter R t ∪ acc) ∅

/-- Modelled from the spec: one corpus run per caller-specified relation
type over a shared corpus state — each run restricted to its own type's
records, as `DbPreassembler(stmt_type=...)` does in the per-type tests. -/
def perTypeRun (ont : Content → Content → CmpRes) (ts : List Nat)
    (R : Finset RawRecord) : Corpus :=
  ts.foldl (fun c t => supplement_corpus ont c (typeFilter R t)) emptyCorpus

/-! ## Knowledgebase evidence expansion

Translated from the source: `_expanded` in `indra_db/cli/knowledgebase.py`
(lines 473-482) walks a sequence of statements; a statement carrying more
than one evidence item is replaced by one generic copy per evidence item,
each copy carrying exactly that item, while other statements pass through
unchanged. -/

/-- A knowledgebase statement as `_expanded` sees it: logical content plus
a list of evidence items. -/
structure KbStmt where
  content : Nat
  evidence : List Nat
deriving DecidableEq, Repr

/-- `Statement.make_generic_copy` of the external INDRA library: a copy of
the statement content carrying no evidence. -/
def makeGenericCopy (s : KbStmt) : KbStmt :=
  { s with evidence := [] }

/-- `new_stmt.evidence.append(ev)`: append one evidence item. -/
def appendEvidence (s : KbStmt) (e : Nat) : KbStmt :=
  { s with evidence := s.evidence ++ [e] }

/-- Translated from the source: the `_expanded` generator of
`indra_db/cli/knowledgebase.py`. -/
def expanded : List KbStmt → List KbStmt
  | [] => []
  | s :: rest =>
    if 1 < s.evidence.length then
      s.evidence.map (fun e => appendEvidence (makeGenericCopy s) e) ++
        expanded rest
    else
      s :: expanded rest

/-! ## Concrete instances used by the witnesses -/

/-- A concrete ontology comparator: within one relation type, the content
with the smaller payload generalizes the one with the larger payload. -/
def ontEx : Content → Content → CmpRes := fun a b =>
  if a.relType = b.relType ∧ a.payload < b.payload then CmpRes.aGenB
  else if a = b then CmpRes.equal
  else CmpRes.unrelated

/-- A concrete record with the general content `⟨0, 0⟩`. -/
def recA : RawRecord := ⟨1, 1, 0, 1, 0, 7, 1, ⟨0, 0⟩, 5⟩

/-- A concrete record with the specific content `⟨0, 1⟩`. -/
def recB : RawRecord := ⟨2, 1, 0, 1, 0, 7, 1, ⟨0, 1⟩, 6⟩

/-- A concrete record sharing `recA`'s content with distinct evidence. -/
def recC : RawRecord := ⟨3, 1, 0, 1, 1, 7, 2, ⟨0, 0⟩, 8⟩

/-- A concrete record of `recA`'s group at the old version 5; the distiller
supersedes it under the priority table `fun _ => [5, 7]`. -/
def recOld : RawRecord := ⟨4, 1, 0, 1, 0, 5, 0, ⟨0, 2⟩, 9⟩

/-! ## Theorems -/

/-! ## Basic distiller lemmas -/

theorem distillSelected_subset (prio : Nat → List Nat) (rs : Finset RawRecord)
    (linked : Finset Nat) : distillSelected prio rs linked ⊆ rs :=
  Finset.filter_subset _ _

theorem mem_distillSelected {prio : Nat → List Nat} {rs : Finset RawRecord}
    {linked : Finset Nat} {r : RawRecord} :
    r ∈ distillSelected prio rs linked ↔
      r ∈ rs ∧ selectRecord prio rs linked r := by
  simp [distillSelected]

theorem mem_distillSuperseded {prio : Nat → List Nat} {rs : Finset RawRecord}
    {linked : Finset Nat} {i : Nat} :
    i ∈ distillSuperseded prio rs linked ↔
      ∃ r ∈ rs, ¬ selectRecord prio rs linked r ∧ r.id = i := by
  simp only [distillSuperseded, Finset.mem_image, Finset.mem_filter]
  constructor
  · rintro ⟨r, ⟨hr, hsel⟩, hid⟩
    exact ⟨r, hr, hsel, hid⟩
  · rintro ⟨r, hr, hsel, hid⟩
    exact ⟨r, ⟨hr, hsel⟩, hid⟩

/-! ## Claim C1: version priority -/

/-- **C1.** For a provenance group `gk` whose records all come from versions
`v1` (old) and `v2` (new) of the group's extractor, with records of both
versions present and an empty linked-ids set, the distiller selects only
`v2`'s records of that group and reports every `v1` record of the group as
superseded. -/
theorem distill_version_priority (prio : Nat → List Nat)
    (rs : Finset RawRecord) (gk : GroupKey) (v1 v2 : Nat)
    (hrank : versionRank prio gk.reader v1 < versionRank prio gk.reader v2)
    (hgrp : ∀ r ∈ rs, r.key = gk → r.rv = v1 ∨ r.rv = v2)
    (_hv1 : ∃ r ∈ rs, r.key = gk ∧ r.rv = v1)
    (hv2 : ∃ r ∈ rs, r.key = gk ∧ r.rv = v2) :
    (∀ r ∈ distillSelected prio rs ∅, r.key = gk → r.rv = v2) ∧
    (∀ r ∈ rs, r.key = gk → r.rv = v1 →
      r.id ∈ distillSuperseded prio rs ∅) := by
  obtain ⟨s, hs, hskey, hsrv⟩ := hv2
  have hreader : ∀ t : RawRecord, t.key = gk → t.reader = gk.reader := by
    intro t ht
    rw [← ht]
    rfl
  -- A record of the group at version v1 is never at the best version:
  -- the v2 record s beats it.
  have hnotbest : ∀ r ∈ rs, r.key = gk → r.rv = v1 →
      ¬ isBestVersion prio rs r := by
    intro r hr hrkey hrv hbest
    have := hbest s hs (by rw [hrkey, hskey])
    apply this
    left
    rw [vkey, vkey, hreader r hrkey, hreader s hskey, hrv, hsrv]
    exact hrank
  have hnotsel : ∀ r ∈ rs, r.key = gk → r.rv = v1 →
      ¬ selectRecord prio rs ∅ r := by
    intro r hr hrkey hrv hsel
    rcases hsel with hlink | ⟨hbest, _⟩
    · exact absurd hlink (Finset.not_mem_empty _)
    · exact hnotbest r hr hrkey hrv hbest
  constructor
  · intro r hrsel hrkey
    rw [mem_distillSelected] at hrsel
    rcases hgrp r hrsel.1 hrkey with hrv | hrv
    · exact absurd hrsel.2 (hnotsel r hrsel.1 hrkey hrv)
    · exact hrv
  · intro r hr hrkey hrv
    rw [mem_distillSuperseded]
    exact ⟨r, hr, hnotsel r hr hrkey hrv, rfl⟩

/-- Witness for C1 on a concrete two-version group: extractor 0 has priority
list `[5, 7]`, the index holds one record at the old version 5 and one at
the new version 7, and only the version-7 record survives. -/
theorem distill_version_priority_witness :
    (∀ r ∈ distillSelected (fun _ => [5, 7])
        {(⟨10, 1, 0, 1, 0, 5, 1, ⟨0, 0⟩, 0⟩ : RawRecord),
         (⟨11, 1, 0, 1, 0, 7, 2, ⟨0, 0⟩, 1⟩ : RawRecord)} ∅,
      r.key = ⟨1, 0, 1, 0⟩ → r.rv = 7) ∧
    (∀ r ∈ ({(⟨10, 1, 0, 1, 0, 5, 1, ⟨0, 0⟩, 0⟩ : RawRecord),
         (⟨11, 1, 0, 1, 0, 7, 2, ⟨0, 0⟩, 1⟩ : RawRecord)} : Finset RawRecord),
      r.key = ⟨1, 0, 1, 0⟩ → r.rv = 5 →
      r.id ∈ distillSuperseded (fun _ => [5, 7])
        {(⟨10, 1, 0, 1, 0, 5, 1, ⟨0, 0⟩, 0⟩ : RawRecord),
         (⟨11, 1, 0, 1, 0, 7, 2, ⟨0, 0⟩, 1⟩ : RawRecord)} ∅) :=
  distill_version_priority (fun _ => [5, 7]) _ ⟨1, 0, 1, 0⟩ 5 7
    (by decide)
    (by decide)
    (by decide)
    (by decide)

/-! ## Claim C2: linked-record exemption -/

/-- **C2.** A record whose id is in the linked-ids set is always retained in
the distiller output, whatever extractor version produced it: the linked-ids
exemption overrides version-priority filtering. -/
theorem distill_linked_exemption (prio : Nat → List Nat)
    (rs : Finset RawRecord) (linked : Finset Nat) :
    ∀ r ∈ rs, r.id ∈ linked → r ∈ distillSelected prio rs linked := by
  intro r hr hlink
  rw [mem_distillSelected]
  exact ⟨hr, Or.inl hlink⟩

/-- Witness for C2: a record at the non-preferred version 5 whose id 10 is
pre-linked is retained even though a version-7 record is present. -/
theorem distill_linked_exemption_witness :
    (⟨10, 1, 0, 1, 0, 5, 1, ⟨0, 0⟩, 0⟩ : RawRecord) ∈
      distillSelected (fun _ => [5, 7])
        {(⟨10, 1, 0, 1, 0, 5, 1, ⟨0, 0⟩, 0⟩ : RawRecord),
         (⟨11, 1, 0, 1, 0, 7, 2, ⟨0, 0⟩, 1⟩ : RawRecord)} {10} :=
  distill_linked_exemption (fun _ => [5, 7]) _ {10} _ (by decide) (by decide)

/-! ## Claim C9: identifier mode agrees with full-record mode -/

/-- **C9.** Calling the distiller with `full_records = False` returns
exactly the identifiers of the records returned with
`full_records = True` — the two result sets have equal cardinality whenever
record identifiers are unique — and both calls return the same
superseded-id set. -/
theorem distill_id_mode_matches (prio : Nat → List Nat)
    (rs : Finset RawRecord) (linked : Finset Nat)
    (hinj : ∀ r ∈ rs, ∀ s ∈ rs, r.id = s.id → r = s) :
    (distill prio rs linked false).1 =
      Sum.inr ((distillSelected prio rs linked).image RawRecord.id) ∧
    (distill prio rs linked true).1 =
      Sum.inl (distillSelected prio rs linked) ∧
    ((distillSelected prio rs linked).image RawRecord.id).card =
      (distillSelected prio rs linked).card ∧
    (distill prio rs linked false).2 = (distill prio rs linked true).2 := by
  refine ⟨rfl, rfl, ?_, rfl⟩
  apply Finset.card_image_of_injOn
  intro r hr s hs hid
  exact hinj r (distillSelected_subset prio rs linked hr)
    s (distillSelected_subset prio rs linked hs) hid

/-- Witness for C9 on a concrete two-record index with distinct ids. -/
theorem distill_id_mode_matches_witness :
    (distill (fun _ => [5, 7])
        {(⟨10, 1, 0, 1, 0, 5, 1, ⟨0, 0⟩, 0⟩ : RawRecord),
         (⟨11, 1, 0, 1, 0, 7, 2, ⟨0, 0⟩, 1⟩ : RawRecord)} {10} false).1 =
      Sum.inr ((distillSelected (fun _ => [5, 7])
        {(⟨10, 1, 0, 1, 0, 5, 1, ⟨0, 0⟩, 0⟩ : RawRecord),
         (⟨11, 1, 0, 1, 0, 7, 2, ⟨0, 0⟩, 1⟩ : RawRecord)} {10}).image
          RawRecord.id) ∧
    (distill (fun _ => [5, 7])
        {(⟨10, 1, 0, 1, 0, 5, 1, ⟨0, 0⟩, 0⟩ : RawRecord),
         (⟨11, 1, 0, 1, 0, 7, 2, ⟨0, 0⟩, 1⟩ : RawRecord)} {10} true).1 =
      Sum.inl (distillSelected (fun _ => [5, 7])
        {(⟨10, 1, 0, 1, 0, 5, 1, ⟨0, 0⟩, 0⟩ : RawRecord),
         (⟨11, 1, 0, 1, 0, 7, 2, ⟨0, 0⟩, 1⟩ : RawRecord)} {10}) ∧
    ((distillSelected (fun _ => [5, 7])
        {(⟨10, 1, 0, 1, 0, 5, 1, ⟨0, 0⟩, 0⟩ : RawRecord),
         (⟨11, 1, 0, 1, 0, 7, 2, ⟨0, 0⟩, 1⟩ : RawRecord)} {10}).image
          RawRecord.id).card =
      (distillSelected (fun _ => [5, 7])
        {(⟨10, 1, 0, 1, 0, 5, 1, ⟨0, 0⟩, 0⟩ : RawRecord),
         (⟨11, 1, 0, 1, 0, 7, 2, ⟨0, 0⟩, 1⟩ : RawRecord)} {10}).card ∧
    (distill (fun _ => [5, 7])
        {(⟨10, 1, 0, 1, 0, 5, 1, ⟨0, 0⟩, 0⟩ : RawRecord),
         (⟨11, 1, 0, 1, 0, 7, 2, ⟨0, 0⟩, 1⟩ : RawRecord)} {10} false).2 =
    (distill (fun _ => [5, 7])
        {(⟨10, 1, 0, 1, 0, 5, 1, ⟨0, 0⟩, 0⟩ : RawRecord),
         (⟨11, 1, 0, 1, 0, 7, 2, ⟨0, 0⟩, 1⟩ : RawRecord)} {10} true).2 :=
  distill_id_mode_matches (fun _ => [5, 7]) _ {10} (by decide)

/-! ## Component lemmas for the builder -/

theorem supplement_canon (ont : Content → Content → CmpRes) (c : Corpus)
    (R : Finset RawRecord) :
    (supplement_corpus ont c R).canon =
      c.canon.image (fun cs => mergeCanon cs R) ∪
        (fpSet R \ c.fps).image (buildCanon R) := rfl

theorem supplement_links (ont : Content → Content → CmpRes) (c : Corpus)
    (R : Finset RawRecord) :
    (supplement_corpus ont c R).links =
      c.links ∪ R.image (fun r => (r.id, r.content)) := rfl

theorem supplement_refs (ont : Content → Content → CmpRes) (c : Corpus)
    (R : Finset RawRecord) :
    (supplement_corpus ont c R).refs =
      c.refs ∪
        refLinksNew ont (c.fps ∪ fpSet R) ((c.fps ∪ fpSet R) \ c.fps) := rfl

theorem refLinksNew_self (ont : Content → Content → CmpRes)
    (F : Finset Content) : refLinksNew ont F F = refLinks ont F := by
  unfold refLinksNew refLinks
  apply Finset.filter_congr
  intro p hp
  rw [Finset.mem_product] at hp
  simp [hp.1]

theorem create_canon (ont : Content → Content → CmpRes)
    (R : Finset RawRecord) :
    (create_corpus ont R).canon = (fpSet R).image (buildCanon R) := by
  simp [create_corpus, supplement_canon, emptyCorpus, Corpus.fps]

theorem create_links (ont : Content → Content → CmpRes)
    (R : Finset RawRecord) :
    (create_corpus ont R).links = R.image (fun r => (r.id, r.content)) := by
  simp [create_corpus, supplement_links, emptyCorpus]

theorem create_refs (ont : Content → Content → CmpRes)
    (R : Finset RawRecord) :
    (create_corpus ont R).refs = refLinks ont (fpSet R) := by
  have h : (emptyCorpus.fps ∪ fpSet R) = fpSet R := by
    simp [emptyCorpus, Corpus.fps]
  rw [create_corpus, supplement_refs, h]
  have h2 : fpSet R \ emptyCorpus.fps = fpSet R := by
    simp [emptyCorpus, Corpus.fps]
  rw [h2, refLinksNew_self]
  simp [emptyCorpus]

theorem buildCanon_fp (R : Finset RawRecord) (fp : Content) :
    (buildCanon R fp).fp = fp := rfl

theorem create_fps (ont : Content → Content → CmpRes)
    (R : Finset RawRecord) : (create_corpus ont R).fps = fpSet R := by
  rw [Corpus.fps, create_canon, Finset.image_image]
  exact Finset.image_id

theorem fpSet_union (R1 R2 : Finset RawRecord) :
    fpSet (R1 ∪ R2) = fpSet R1 ∪ fpSet R2 :=
  Finset.image_union _ _

theorem contentGroup_union (R1 R2 : Finset RawRecord) (fp : Content) :
    contentGroup (R1 ∪ R2) fp = contentGroup R1 fp ∪ contentGroup R2 fp :=
  Finset.filter_union _ _ _

theorem contentGroup_empty_of_not_mem {R : Finset RawRecord} {fp : Content}
    (h : fp ∉ fpSet R) : contentGroup R fp = ∅ := by
  rw [contentGroup, Finset.filter_eq_empty_iff]
  intro r hr hcontra
  apply h
  rw [fpSet]
  exact hcontra ▸ Finset.mem_image_of_mem RawRecord.content hr

theorem mergeCanon_buildCanon (R1 R2 : Finset RawRecord) (fp : Content) :
    mergeCanon (buildCanon R1 fp) R2 = buildCanon (R1 ∪ R2) fp := by
  rw [mergeCanon, buildCanon, buildCanon]
  simp only [contentGroup_union, Finset.image_union]

theorem buildCanon_grow {R1 : Finset RawRecord} (R2 : Finset RawRecord)
    {fp : Content} (h : fp ∉ fpSet R1) :
    buildCanon R2 fp = buildCanon (R1 ∪ R2) fp := by
  rw [buildCanon, buildCanon, contentGroup_union,
    contentGroup_empty_of_not_mem h]
  simp

theorem corpus_eq_of {c d : Corpus} (h1 : c.canon = d.canon)
    (h2 : c.links = d.links) (h3 : c.refs = d.refs) : c = d := by
  cases c
  cases d
  simp_all

/-! ## Convergence of the incremental build -/

theorem refs_merge (ont : Content → Content → CmpRes)
    (F G : Finset Content) :
    refLinks ont F ∪ refLinksNew ont (F ∪ G) ((F ∪ G) \ F) =
      refLinks ont (F ∪ G) := by
  ext p
  simp only [refLinks, refLinksNew, Finset.mem_union, Finset.mem_filter,
    Finset.mem_product, Finset.mem_sdiff]
  tauto

theorem supplement_create_eq (ont : Content → Content → CmpRes)
    (R1 R2 : Finset RawRecord) :
    supplement_corpus ont (create_corpus ont R1) R2 =
      create_corpus ont (R1 ∪ R2) := by
  apply corpus_eq_of
  · rw [supplement_canon, create_canon, create_canon, create_fps,
      Finset.image_image]
    have h1 : (fpSet R1).image
          ((fun cs => mergeCanon cs R2) ∘ buildCanon R1) =
        (fpSet R1).image (buildCanon (R1 ∪ R2)) :=
      Finset.image_congr (fun fp _ => mergeCanon_buildCanon R1 R2 fp)
    have h2 : (fpSet R2 \ fpSet R1).image (buildCanon R2) =
        (fpSet R2 \ fpSet R1).image (buildCanon (R1 ∪ R2)) :=
      Finset.image_congr
        (fun fp hfp => buildCanon_grow R2 (Finset.mem_sdiff.mp hfp).2)
    rw [h1, h2, ← Finset.image_union, Finset.union_sdiff_self_eq_union,
      ← fpSet_union]
  · rw [supplement_links, create_links, create_links, Finset.image_union]
  · rw [supplement_refs, create_refs, create_refs, create_fps, fpSet_union]
    exact refs_merge ont (fpSet R1) (fpSet R2)

/-! ## Claim C3: convergence of create plus supplement -/

/-- **C3.** For every record set split into `R1` and `R2`, a full build on
`R1` followed by an incremental supplement with `R2` yields a corpus
structurally equal — canonical statements, raw-to-canonical links and
refinement links alike — to a single full build over `R1 ∪ R2`. -/
theorem corpus_convergence (ont : Content → Content → CmpRes)
    (R1 R2 : Finset RawRecord) :
    supplement_corpus ont (create_corpus ont R1) R2 =
      create_corpus ont (R1 ∪ R2) :=
  supplement_create_eq ont R1 R2

/-! ## Claim C4: idempotence of the full build -/

/-- **C4.** Re-running the full build over the same immutable record set —
folding the same records once more into the corpus the first run produced —
leaves the canonical-statement set and the raw-to-canonical link set
unchanged, and no two canonical statements of the corpus ever share a
shallow fingerprint (no duplicates are created). -/
theorem create_corpus_idempotent (ont : Content → Content → CmpRes)
    (R : Finset RawRecord) :
    (supplement_corpus ont (create_corpus ont R) R).canon =
      (create_corpus ont R).canon ∧
    (supplement_corpus ont (create_corpus ont R) R).links =
      (create_corpus ont R).links ∧
    (∀ a ∈ (create_corpus ont R).canon, ∀ b ∈ (create_corpus ont R).canon,
      a.fp = b.fp → a = b) := by
  have h : supplement_corpus ont (create_corpus ont R) R =
      create_corpus ont R := by
    rw [supplement_create_eq, Finset.union_self]
  refine ⟨by rw [h], by rw [h], ?_⟩
  intro a ha b hb hfp
  rw [create_canon] at ha hb
  obtain ⟨x, _, rfl⟩ := Finset.mem_image.mp ha
  obtain ⟨y, _, rfl⟩ := Finset.mem_image.mp hb
  rw [buildCanon_fp, buildCanon_fp] at hfp
  rw [hfp]

/-- Witness for C4 on a concrete two-record set. -/
theorem create_corpus_idempotent_witness :
    (supplement_corpus ontEx (create_corpus ontEx {recA, recB})
        {recA, recB}).canon =
      (create_corpus ontEx {recA, recB}).canon ∧
    (supplement_corpus ontEx (create_corpus ontEx {recA, recB})
        {recA, recB}).links =
      (create_corpus ontEx {recA, recB}).links ∧
    (∀ a ∈ (create_corpus ontEx {recA, recB}).canon,
      ∀ b ∈ (create_corpus ontEx {recA, recB}).canon, a.fp = b.fp → a = b) :=
  create_corpus_idempotent ontEx {recA, recB}

/-! ## Claim C5: no self-support -/

theorem reachable_refPair {ont : Content → Content → CmpRes} {c : Corpus}
    (h : ReachableCorpus ont c) : ∀ p ∈ c.refs, refPair ont p := by
  induction h with
  | created R =>
    intro p hp
    rw [create_refs] at hp
    exact (Finset.mem_filter.mp hp).2
  | supplemented c R _ ih =>
    intro p hp
    rw [supplement_refs] at hp
    rcases Finset.mem_union.mp hp with h1 | h2
    · exact ih p h1
    · exact (Finset.mem_filter.mp h2).2.2

/-- **C5.** In every corpus state reachable by a full build or any chain of
incremental supplements, no refinement link relates a statement to itself:
the supporting fingerprint always differs from the supported one. -/
theorem refinement_no_self_support (ont : Content → Content → CmpRes)
    (c : Corpus) (h : ReachableCorpus ont c) :
    ∀ p ∈ c.refs, p.1 ≠ p.2 :=
  fun p hp => (reachable_refPair h p hp).1

/-- Witness for C5 on the concrete corpus built from `recA` and `recB`,
whose refinement-link table is nonempty. -/
theorem refinement_no_self_support_witness :
    ((⟨0, 1⟩, ⟨0, 0⟩) ∈ (create_corpus ontEx {recA, recB}).refs) ∧
    (∀ p ∈ (create_corpus ontEx {recA, recB}).refs, p.1 ≠ p.2) :=
  ⟨by decide,
    refinement_no_self_support ontEx _ (ReachableCorpus.created {recA, recB})⟩

/-! ## Claim C6: raw-to-canonical link coverage -/

/-- **C6.** After a corpus build over the distiller's output, every
surviving record has exactly one raw-to-canonical link — the link to its
own fingerprint —, no superseded record id occurs in any link, and every
canonical-statement fingerprint is the target of at least one link.
Record identifiers are assumed unique, as they are immutable storage
keys. -/
theorem raw_unique_link_coverage (ont : Content → Content → CmpRes)
    (prio : Nat → List Nat) (rs : Finset RawRecord) (linked : Finset Nat)
    (hinj : ∀ r ∈ rs, ∀ s ∈ rs, r.id = s.id → r = s) :
    (∀ r ∈ distillSelected prio rs linked,
      (create_corpus ont (distillSelected prio rs linked)).links.filter
          (fun l => l.1 = r.id) = {(r.id, r.content)}) ∧
    (∀ i ∈ distillSuperseded prio rs linked,
      ∀ l ∈ (create_corpus ont (distillSelected prio rs linked)).links,
        l.1 ≠ i) ∧
    (∀ cs ∈ (create_corpus ont (distillSelected prio rs linked)).canon,
      ∃ l ∈ (create_corpus ont (distillSelected prio rs linked)).links,
        l.2 = cs.fp) := by
  have hsub : distillSelected prio rs linked ⊆ rs :=
    distillSelected_subset prio rs linked
  refine ⟨?_, ?_, ?_⟩
  · intro r hr
    rw [create_links]
    ext l
    simp only [Finset.mem_filter, Finset.mem_image, Finset.mem_singleton]
    constructor
    · rintro ⟨⟨s, hsmem, rfl⟩, hid⟩
      have hsr : s = r := hinj s (hsub hsmem) r (hsub hr) hid
      rw [hsr]
    · rintro rfl
      exact ⟨⟨r, hr, rfl⟩, rfl⟩
  · intro i hi l hl
    rw [create_links] at hl
    obtain ⟨t, htmem, rfl⟩ := Finset.mem_image.mp hl
    rw [mem_distillSuperseded] at hi
    obtain ⟨u, hu, hnsel, huid⟩ := hi
    intro heq
    have htu : t = u := hinj t (hsub htmem) u hu (by rw [huid]; exact heq)
    have htsel := (mem_distillSelected.mp htmem).2
    exact hnsel (htu ▸ htsel)
  · intro cs hcs
    rw [create_canon] at hcs
    obtain ⟨x, hx, rfl⟩ := Finset.mem_image.mp hcs
    rw [fpSet] at hx
    obtain ⟨r, hr, hrc⟩ := Finset.mem_image.mp hx
    rw [create_links]
    refine ⟨(r.id, r.content), Finset.mem_image_of_mem _ hr, ?_⟩
    rw [buildCanon_fp]
    exact hrc

/-- Witness for C6 on a concrete index of three uniquely-identified records
in which `recOld` is superseded. -/
theorem raw_unique_link_coverage_witness :
    (∀ r ∈ distillSelected (fun _ => [5, 7]) {recA, recB, recOld} ∅,
      (create_corpus ontEx
          (distillSelected (fun _ => [5, 7]) {recA, recB, recOld} ∅)).links.filter
          (fun l => l.1 = r.id) = {(r.id, r.content)}) ∧
    (∀ i ∈ distillSuperseded (fun _ => [5, 7]) {recA, recB, recOld} ∅,
      ∀ l ∈ (create_corpus ontEx
          (distillSelected (fun _ => [5, 7]) {recA, recB, recOld} ∅)).links,
        l.1 ≠ i) ∧
    (∀ cs ∈ (create_corpus ontEx
        (distillSelected (fun _ => [5, 7]) {recA, recB, recOld} ∅)).canon,
      ∃ l ∈ (create_corpus ontEx
          (distillSelected (fun _ => [5, 7]) {recA, recB, recOld} ∅)).links,
        l.2 = cs.fp) :=
  raw_unique_link_coverage ontEx (fun _ => [5, 7]) {recA, recB, recOld} ∅
    (by decide)

/-! ## Claim C7: evidence merge and exact-duplicate collapse -/

/-- **C7.** Two records with the same shallow fingerprint merge into a
single canonical statement; its evidence set has cardinality 2 when the two
evidence items differ, and cardinality 1 when content and evidence are both
identical (the full fingerprints collide and the duplicates collapse). -/
theorem evidence_merge_counts (ont : Content → Content → CmpRes)
    (r1 r2 : RawRecord) (hc : r1.content = r2.content) :
    (create_corpus ont {r1, r2}).canon.card = 1 ∧
    (∀ cs ∈ (create_corpus ont {r1, r2}).canon,
      cs.evidence.card = if r1.evidence = r2.evidence then 1 else 2) := by
  have hfp : fpSet {r1, r2} = {r2.content} := by
    rw [fpSet, Finset.image_insert, Finset.image_singleton, hc,
      Finset.pair_eq_singleton]
  have hgrp : contentGroup {r1, r2} r2.content = {r1, r2} := by
    rw [contentGroup, Finset.filter_insert, if_pos hc,
      Finset.filter_singleton, if_pos rfl]
  have hcanon : (create_corpus ont {r1, r2}).canon =
      {buildCanon {r1, r2} r2.content} := by
    rw [create_canon, hfp, Finset.image_singleton]
  constructor
  · rw [hcanon, Finset.card_singleton]
  · intro cs hcs
    rw [hcanon, Finset.mem_singleton] at hcs
    subst hcs
    show ((contentGroup {r1, r2} r2.content).image RawRecord.evidence).card = _
    rw [hgrp, Finset.image_insert, Finset.image_singleton]
    by_cases heq : r1.evidence = r2.evidence
    · rw [if_pos heq, heq, Finset.pair_eq_singleton, Finset.card_singleton]
    · rw [if_neg heq,
        Finset.card_insert_of_not_mem (by simp [heq]),
        Finset.card_singleton]

/-- Witness for C7: `recA` and `recC` share the content `⟨0, 0⟩` but carry
distinct evidence, so the merged canonical statement holds two evidence
items. -/
theorem evidence_merge_counts_witness :
    (create_corpus ontEx {recA, recC}).canon.card = 1 ∧
    (∀ cs ∈ (create_corpus ontEx {recA, recC}).canon,
      cs.evidence.card = if recA.evidence = recC.evidence then 1 else 2) :=
  evidence_merge_counts ontEx recA recC (by decide)

/-! ## Claim C8: relation-type partitioning -/

theorem create_empty (ont : Content → Content → CmpRes) :
    create_corpus ont ∅ = emptyCorpus := by
  apply corpus_eq_of
  · rw [create_canon]
    simp [fpSet, emptyCorpus]
  · rw [create_links]
    simp [emptyCorpus]
  · rw [create_refs]
    simp [refLinks, fpSet, emptyCorpus]

theorem typedUnion_cons (R : Finset RawRecord) (t : Nat) (ts : List Nat) :
    typedUnion R (t :: ts) = typeFilter R t ∪ typedUnion R ts := rfl

theorem mem_typedUnion {R : Finset RawRecord} {ts : List Nat}
    {r : RawRecord} :
    r ∈ typedUnion R ts ↔ r ∈ R ∧ r.content.relType ∈ ts := by
  induction ts with
  | nil => simp [typedUnion]
  | cons t ts ih =>
    rw [typedUnion_cons, Finset.mem_union, ih]
    simp only [typeFilter, Finset.mem_filter, List.mem_cons]
    tauto

theorem typedUnion_eq_of_cover {R : Finset RawRecord} {ts : List Nat}
    (h : ∀ r ∈ R, r.content.relType ∈ ts) : typedUnion R ts = R := by
  ext r
  rw [mem_typedUnion]
  exact ⟨fun hr => hr.1, fun hr => ⟨hr, h r hr⟩⟩

theorem foldl_supplement_create (ont : Content → Content → CmpRes)
    (R : Finset RawRecord) :
    ∀ (ts : List Nat) (S : Finset RawRecord),
      ts.foldl (fun c t => supplement_corpus ont c (typeFilter R t))
        (create_corpus ont S) =
      create_corpus ont (S ∪ typedUnion R ts) := by
  intro ts
  induction ts with
  | nil =>
    intro S
    simp [typedUnion]
  | cons t ts ih =>
    intro S
    rw [List.foldl_cons, supplement_create_eq, ih]
    congr 1
    rw [typedUnion_cons, Finset.union_assoc]

/-- **C8.** Refinement links only ever relate two statements of the same
relation type, in every reachable corpus state; and running the builder
once per relation type, each run restricted to its own type's records,
produces the same corpus as a single unrestricted run over all the
records. -/
theorem refinement_type_partition (ont : Content → Content → CmpRes)
    (ts : List Nat) (R : Finset RawRecord) (c : Corpus)
    (hreach : ReachableCorpus ont c)
    (hcov : ∀ r ∈ R, r.content.relType ∈ ts) :
    (∀ p ∈ c.refs, p.1.relType = p.2.relType) ∧
    perTypeRun ont ts R = create_corpus ont R := by
  constructor
  · exact fun p hp => (reachable_refPair hreach p hp).2.1
  · rw [perTypeRun, ← create_empty ont, foldl_supplement_create ont R ts ∅,
      Finset.empty_union, typedUnion_eq_of_cover hcov]

/-- Witness for C8: a single-type record set with its per-type run, and the
corpus it builds. -/
theorem refinement_type_partition_witness :
    (∀ p ∈ (create_corpus ontEx {recA, recB}).refs,
      p.1.relType = p.2.relType) ∧
    perTypeRun ontEx [0] {recA, recB} = create_corpus ontEx {recA, recB} :=
  refinement_type_partition ontEx [0] {recA, recB} _
    (ReachableCorpus.created {recA, recB}) (by decide)

/-! ## Claim C10: evidence expansion -/

theorem appendEvidence_copy (s : KbStmt) (e : Nat) :
    (appendEvidence (makeGenericCopy s) e).evidence = [e] := rfl

theorem expanded_segment (s : KbStmt) :
    ((s.evidence.map (fun e => appendEvidence (makeGenericCopy s) e)).flatMap
      KbStmt.evidence) = s.evidence := by
  induction s.evidence with
  | nil => rfl
  | cons e es ih => simp_all [appendEvidence_copy]

/-- **C10.** The evidence-expansion generator `_expanded` yields, for each
input statement with more than one evidence item, one copy per evidence
item, each copy carrying exactly that single item; statements with zero or
one evidence item pass through unchanged; hence the multiset of evidence
items over the outputs equals that over the inputs, and no yielded
statement carries more than one evidence item. -/
theorem expanded_evidence_conservation (l : List KbStmt) :
    expanded l = l.flatMap (fun s =>
      if 1 < s.evidence.length then
        s.evidence.map (fun e => appendEvidence (makeGenericCopy s) e)
      else [s]) ∧
    ((expanded l).flatMap KbStmt.evidence).Perm
      (l.flatMap KbStmt.evidence) ∧
    (∀ s ∈ expanded l, s.evidence.length ≤ 1) := by
  refine ⟨?_, ?_, ?_⟩
  · induction l with
    | nil => rfl
    | cons s rest ih =>
      rw [List.flatMap_cons, ← ih, expanded]
      split <;> rfl
  · induction l with
    | nil => exact List.Perm.refl _
    | cons s rest ih =>
      rw [expanded, List.flatMap_cons]
      split
      · rw [List.flatMap_append, expanded_segment]
        exact List.Perm.append_left s.evidence ih
      · rw [List.flatMap_cons]
        exact List.Perm.append_left s.evidence ih
  · induction l with
    | nil => intro s hs; cases hs
    | cons s rest ih =>
      intro t ht
      rw [expanded] at ht
      by_cases hlen : 1 < s.evidence.length
      · rw [if_pos hlen, List.mem_append] at ht
        rcases ht with hmap | hrest
        · obtain ⟨e, _, rfl⟩ := List.mem_map.mp hmap
          rw [appendEvidence_copy]
          exact Nat.le_refl 1
        · exact ih t hrest
      · rw [if_neg hlen, List.mem_cons] at ht
        rcases ht with rfl | hrest
        · exact Nat.not_lt.mp hlen
        · exact ih t hrest

/-- Witness for C10 on a concrete statement list with a two-evidence
statement, a one-evidence statement and an evidence-free statement. -/
theorem expanded_evidence_conservation_witness :
    expanded [⟨0, [1, 2]⟩, ⟨1, [3]⟩, ⟨2, []⟩] =
      ([⟨0, [1, 2]⟩, ⟨1, [3]⟩, ⟨2, []⟩] : List KbStmt).flatMap (fun s =>
        if 1 < s.evidence.length then
          s.evidence.map (fun e => appendEvidence (makeGenericCopy s) e)
        else [s]) ∧
    ((expanded [⟨0, [1, 2]⟩, ⟨1, [3]⟩, ⟨2, []⟩]).flatMap
        KbStmt.evidence).Perm
      (([⟨0, [1, 2]⟩, ⟨1, [3]⟩, ⟨2, []⟩] : List KbStmt).flatMap
        KbStmt.evidence) ∧
    (∀ s ∈ expanded [⟨0, [1, 2]⟩, ⟨1, [3]⟩, ⟨2, []⟩],
      s.evidence.length ≤ 1) :=
  expanded_evidence_conservation [⟨0, [1, 2]⟩, ⟨1, [3]⟩, ⟨2, []⟩]
